import Mathlib

/-!
Formal model of the transaction-graph analysis program (`src/main.rs`): an
undirected graph over string-identified nodes stored as an adjacency map,
with degree-distribution, two-hop-neighbor and power-law-fit computations,
and the CSV ingestion loop that builds the graph.

Modelling conventions:
- `HashMap<String, HashSet<String>>` is modelled by its finite key set
  together with a total function giving each key's neighbor `Finset`;
  `Graph.getAdj` mirrors `HashMap::get` and is `none` off the key set.
- `HashMap<usize, usize>` results (the degree distribution) are modelled
  extensionally, since hash-map iteration order is unspecified: a key
  `Finset` plus a count function.
- `f64` arithmetic is modelled twice. `evaluate_power_law` computes over
  plain real numbers (`powf` becomes `Real.rpow`); real arithmetic is total
  (`x / 0 = 0`), so this model is used only where finite values are at
  stake. `evaluate_power_law_f64` computes over `F64`, which carries finite
  values exactly and represents `±inf` and `NaN` with IEEE propagation
  rules for the operations the source performs, so the error path that a
  degree key of 0 triggers in the source (`1.0 / 0.0^2.5 = inf`, then
  `inf / inf = NaN`) is preserved; statements about the score's range are
  made against this model. Rounding of finite values is not modelled; no
  verified property depends on it.
-/

/-- Model of `struct Graph { adjacency_list: HashMap<String, HashSet<String>> }`:
the map's key set together with the neighbor set stored under each key. -/
@[ext]
structure Graph where
  keys : Finset String
  adj : String → Finset String

namespace Graph

/-- Model of `Graph::new()`: the empty adjacency map. -/
def new : Graph := ⟨∅, fun _ => ∅⟩

/-- Model of `HashMap::get` on the adjacency list: `some` of the stored
neighbor set when `node` is a key, `none` otherwise. -/
def getAdj (g : Graph) (node : String) : Option (Finset String) :=
  if node ∈ g.keys then some (g.adj node) else none

/-- Model of `Graph::add_edge(node1, node2)`: inserts `node2` into `node1`'s
neighbor set and `node1` into `node2`'s neighbor set, creating either node's
entry (with an empty set) if absent, exactly as the two
`entry(..).or_insert_with(HashSet::new).insert(..)` statements do. -/
def add_edge (g : Graph) (node1 node2 : String) : Graph where
  keys := insert node1 (insert node2 g.keys)
  adj := fun x =>
    if x = node1 then insert node2 (g.adj node1)
    else if x = node2 then insert node1 (g.adj node2)
    else g.adj x

/-- Model of `Graph::degree_distribution`: for each node in the adjacency
map, tally the size of its neighbor set. The returned
`HashMap<usize, usize>` is modelled extensionally: its key set is the set of
degrees that occur, and its value at a degree is the number of nodes with
that degree. -/
def degree_distribution (g : Graph) : Finset ℕ × (ℕ → ℕ) :=
  (g.keys.image (fun v => (g.adj v).card),
   fun d => (g.keys.filter (fun v => (g.adj v).card = d)).card)

/-- Model of `Graph::neighbors_at_distance_two(node)`: when `node` is present,
collect into a set every member of every direct neighbor's neighbor set other
than `node` itself and return that set's size; when `node` is absent return 0.
A neighbor absent from the map (inner `if let` misses) contributes nothing,
which `Option.getD ∅` captures. -/
def neighbors_at_distance_two (g : Graph) (node : String) : ℕ :=
  match g.getAdj node with
  | some neighbors =>
      ((neighbors.biUnion (fun n => (g.getAdj n).getD ∅)).erase node).card
  | none => 0

/-- Neighbor set of a node as the spec reads it: the set stored for the node
in the adjacency mapping, empty when the node is absent. -/
def neighborSet (g : Graph) (node : String) : Finset String :=
  (g.getAdj node).getD ∅

/-- Well-formedness invariant of the model: off the key set the adjacency
function is the empty set (a real `HashMap` stores nothing there). Holds for
every graph reachable by `add_edge` from `Graph.new`. -/
def Supported (g : Graph) : Prop := ∀ x, x ∉ g.keys → g.adj x = ∅

/-- Symmetry of the underlying adjacency function. -/
def SymmAdj (g : Graph) : Prop := ∀ x y, y ∈ g.adj x → x ∈ g.adj y

end Graph

/-- Builds a graph by folding `add_edge` over a list of edge pairs starting
from the empty graph: the reachable graph states. -/
def buildGraph (edges : List (String × String)) : Graph :=
  edges.foldl (fun g e => g.add_edge e.1 e.2) Graph.new

/-- Model of the per-line body of `build_graph_from_csv`: split the record on
commas; when at least two fields result, add an edge between the trimmed
first and second fields (further fields are ignored); otherwise leave the
graph unchanged. -/
def processRecord (g : Graph) (record : String) : Graph :=
  match record.splitOn "," with
  | p0 :: p1 :: _ => g.add_edge p0.trim p1.trim
  | _ => g

/-- Model of `build_graph_from_csv`, with the successfully read lines of the
file supplied as a list (opening the file and the per-line `Ok` filtering are
IO concerns outside the model). -/
def build_graph_from_csv (lines : List String) : Graph :=
  lines.foldl processRecord Graph.new

/-- Edge list described by the spec's ingestion contract: each line splits on
commas; lines with at least two fields contribute the trimmed first two
fields as an edge, in input order; shorter lines are skipped silently. -/
def wellFormedEdges (lines : List String) : List (String × String) :=
  lines.filterMap (fun record =>
    match record.splitOn "," with
    | p0 :: p1 :: _ => some (p0.trim, p1.trim)
    | _ => none)

/-- Distance-two set as described by the spec: the union of the neighbor sets
of all of the node's direct neighbors, with only the node itself removed. -/
def specDistanceTwoSet (g : Graph) (node : String) : Finset String :=
  ((g.neighborSet node).biUnion (fun n => g.neighborSet n)).erase node

/-- Model of `evaluate_power_law`, with the input `HashMap<usize, usize>`
given as a list of (degree, count) pairs. The `f64` computation is carried
out over ℝ: observed probabilities `count / total`, theoretical weights
`1 / d^2.5` normalized over the observed support, squared-error sum, and the
final score `1 / (1 + mse)`. The `sort_by` on the degree key is modelled by
`List.mergeSort`. -/
noncomputable def evaluate_power_law (distribution : List (ℕ × ℕ)) : ℝ :=
  let total_nodes : ℕ := (distribution.map (fun p => p.2)).sum
  let observed : List (ℕ × ℝ) :=
    (distribution.map (fun p => (p.1, (p.2 : ℝ) / (total_nodes : ℝ)))).mergeSort
      (fun a b => decide (a.1 ≤ b.1))
  let alpha : ℝ := 2.5
  let normalization : ℝ :=
    (observed.map (fun p => 1 / ((p.1 : ℝ) ^ alpha))).sum
  let theoretical : List ℝ :=
    observed.map (fun p => 1 / ((p.1 : ℝ) ^ alpha) / normalization)
  let mse : ℝ :=
    ((observed.zip theoretical).map (fun q => (q.1.2 - q.2) ^ 2)).sum
  1 / (1 + mse)

/-- Path graph A–B–C–D used by `tests::test_neighbors_at_distance_two`. -/
def pathGraph : Graph :=
  buildGraph [("A", "B"), ("B", "C"), ("C", "D")]

/-- Value of an IEEE-754 `f64` computation: finite values carried exactly as
reals (rounding is not modelled; no verified property depends on it), and
the special values `±inf` and `NaN` represented explicitly so that the
error paths of the source — division by zero, `inf / inf` — survive in the
model instead of being collapsed by total real arithmetic. -/
inductive F64 where
  | fin (x : ℝ)
  | inf
  | neginf
  | nan

namespace F64

/-- IEEE addition on the modelled values: finite addition is exact, a NaN
operand propagates, an infinity absorbs finite values, and opposite
infinities give NaN. -/
def add : F64 → F64 → F64
  | nan, _ => nan
  | _, nan => nan
  | fin x, fin y => fin (x + y)
  | fin _, inf => inf
  | fin _, neginf => neginf
  | inf, fin _ => inf
  | inf, inf => inf
  | inf, neginf => nan
  | neginf, fin _ => neginf
  | neginf, inf => nan
  | neginf, neginf => neginf

/-- IEEE subtraction, by the same rules as `add`. -/
def sub : F64 → F64 → F64
  | nan, _ => nan
  | _, nan => nan
  | fin x, fin y => fin (x - y)
  | fin _, inf => neginf
  | fin _, neginf => inf
  | inf, fin _ => inf
  | inf, inf => nan
  | inf, neginf => inf
  | neginf, fin _ => neginf
  | neginf, inf => neginf
  | neginf, neginf => nan

/-- IEEE squaring, the model of `.powi(2)`: exact on finite values, `inf` on
either infinity, NaN on NaN. -/
def sq : F64 → F64
  | nan => nan
  | inf => inf
  | neginf => inf
  | fin x => fin (x ^ 2)

/-- IEEE division (the sign of zero is not distinguished: this program never
forms a negative zero). Finite by finite nonzero is exact; a nonzero finite
value divided by zero is a signed infinity and `0 / 0` is NaN; a finite
value over an infinity is 0; an infinity over an infinity is NaN. -/
noncomputable def div : F64 → F64 → F64
  | nan, _ => nan
  | _, nan => nan
  | fin x, fin y =>
      if y = 0 then (if x = 0 then nan else if 0 < x then inf else neginf)
      else fin (x / y)
  | fin _, inf => fin 0
  | fin _, neginf => fin 0
  | inf, fin y => if 0 ≤ y then inf else neginf
  | inf, inf => nan
  | inf, neginf => nan
  | neginf, fin y => if 0 ≤ y then neginf else inf
  | neginf, inf => nan
  | neginf, neginf => nan

/-- IEEE `powf` for the cases this program can reach (the base is a cast of
`usize`, so nonnegative): `x ^ y` exactly for positive finite `x`; for a zero
base, 1, 0 or `inf` as the exponent is zero, positive or negative; a
negative base with the non-integer exponent used here would be NaN. -/
noncomputable def powf : F64 → ℝ → F64
  | nan, _ => nan
  | inf, y => if 0 < y then inf else if y = 0 then fin 1 else fin 0
  | neginf, y => if 0 < y then inf else if y = 0 then fin 1 else fin 0
  | fin x, y =>
      if 0 < x then fin (x ^ y)
      else if x = 0 then (if 0 < y then fin 0 else if y = 0 then fin 1 else inf)
      else nan

/-- Iterator `sum()` over `f64` values: a left fold of IEEE addition starting
from `0.0`. -/
def sum (l : List F64) : F64 := l.foldl add (fin 0)

/-- Finite value carried by a model value (0 for the special values). -/
def toReal : F64 → ℝ
  | fin x => x
  | _ => 0

/-- The spec's "score lies in (0, 1]" read on an `f64` value: the value must
be finite and in that interval; NaN and the infinities do not qualify. -/
def inIoc01 : F64 → Prop
  | fin x => 0 < x ∧ x ≤ 1
  | _ => False

end F64

/-- Model of `evaluate_power_law` that tracks IEEE-754 special values: the
same computation as `evaluate_power_law`, but with every `f64` operation
interpreted in `F64`, so that on a degree key of 0 the source's
`1.0 / 0.0.powf(2.5) = inf` normalization and the resulting `inf / inf = NaN`
theoretical probability propagate to a NaN score exactly as in the source. -/
noncomputable def evaluate_power_law_f64 (distribution : List (ℕ × ℕ)) : F64 :=
  let total_nodes : ℕ := (distribution.map (fun p => p.2)).sum
  let observed : List (ℕ × F64) :=
    (distribution.map (fun p =>
      (p.1, F64.div (F64.fin (p.2 : ℝ)) (F64.fin (total_nodes : ℝ))))).mergeSort
      (fun a b => decide (a.1 ≤ b.1))
  let alpha : ℝ := 2.5
  let normalization : F64 :=
    F64.sum (observed.map (fun p =>
      F64.div (F64.fin 1) (F64.powf (F64.fin (p.1 : ℝ)) alpha)))
  let theoretical : List F64 :=
    observed.map (fun p =>
      F64.div (F64.div (F64.fin 1) (F64.powf (F64.fin (p.1 : ℝ)) alpha))
        normalization)
  let mse : F64 :=
    F64.sum ((observed.zip theoretical).map
      (fun q => F64.sq (F64.sub q.1.2 q.2)))
  F64.div (F64.fin 1) (F64.add (F64.fin 1) mse)

/-- Key-set membership after `add_edge`. -/
lemma Graph.mem_add_edge_keys (g : Graph) (a b x : String) :
    x ∈ (g.add_edge a b).keys ↔ x = a ∨ x = b ∨ x ∈ g.keys := by
  simp [Graph.add_edge]

/-- Adjacency membership after `add_edge`. -/
lemma Graph.mem_add_edge_adj (g : Graph) (a b x y : String) :
    y ∈ (g.add_edge a b).adj x ↔
      (x = a ∧ y = b) ∨ (x = b ∧ y = a) ∨ y ∈ g.adj x := by
  rcases eq_or_ne x a with rfl | hxa
  · rcases eq_or_ne x b with rfl | hxb
    · simp [Graph.add_edge]
    · simp [Graph.add_edge, hxb]
  · rcases eq_or_ne x b with rfl | hxb
    · simp [Graph.add_edge, hxa]
    · simp [Graph.add_edge, hxa, hxb]

/-- Membership in a neighbor set splits into key membership and adjacency
membership. -/
lemma Graph.mem_neighborSet_iff (g : Graph) (x y : String) :
    y ∈ g.neighborSet x ↔ x ∈ g.keys ∧ y ∈ g.adj x := by
  unfold Graph.neighborSet Graph.getAdj
  by_cases hx : x ∈ g.keys <;> simp [hx]

/-- The empty graph is supported. -/
lemma Graph.new_supported : Graph.new.Supported := fun _ _ => rfl

/-- The empty graph has a symmetric adjacency function. -/
lemma Graph.new_symmAdj : Graph.new.SymmAdj := by
  intro x y h
  simp [Graph.new] at h

/-- The `add_edge` operation preserves `Supported`. -/
lemma Graph.add_edge_supported {g : Graph} (h : g.Supported) (a b : String) :
    (g.add_edge a b).Supported := by
  intro x hx
  rw [Graph.mem_add_edge_keys] at hx
  push_neg at hx
  obtain ⟨h1, h2, h3⟩ := hx
  show (if x = a then _ else if x = b then _ else g.adj x) = ∅
  rw [if_neg h1, if_neg h2]
  exact h x h3

/-- The `add_edge` operation preserves adjacency symmetry. -/
lemma Graph.add_edge_symmAdj {g : Graph} (h : g.SymmAdj) (a b : String) :
    (g.add_edge a b).SymmAdj := by
  intro x y hxy
  rw [Graph.mem_add_edge_adj] at hxy ⊢
  rcases hxy with ⟨rfl, rfl⟩ | ⟨rfl, rfl⟩ | hmem
  · exact Or.inr (Or.inl ⟨rfl, rfl⟩)
  · exact Or.inl ⟨rfl, rfl⟩
  · exact Or.inr (Or.inr (h x y hmem))

/-- Folding `add_edge` over any edge list preserves `Supported`. -/
lemma foldl_add_edge_supported (es : List (String × String)) :
    ∀ g : Graph, g.Supported →
      (es.foldl (fun g e => g.add_edge e.1 e.2) g).Supported := by
  induction es with
  | nil => intro g h; exact h
  | cons e es ih => intro g h; exact ih _ (Graph.add_edge_supported h e.1 e.2)

/-- Folding `add_edge` over any edge list preserves adjacency symmetry. -/
lemma foldl_add_edge_symmAdj (es : List (String × String)) :
    ∀ g : Graph, g.SymmAdj →
      (es.foldl (fun g e => g.add_edge e.1 e.2) g).SymmAdj := by
  induction es with
  | nil => intro g h; exact h
  | cons e es ih => intro g h; exact ih _ (Graph.add_edge_symmAdj h e.1 e.2)

/-- Every reachable graph is supported. -/
lemma buildGraph_supported (es : List (String × String)) :
    (buildGraph es).Supported :=
  foldl_add_edge_supported es Graph.new Graph.new_supported

/-- Every reachable graph has a symmetric adjacency function. -/
lemma buildGraph_symmAdj (es : List (String × String)) :
    (buildGraph es).SymmAdj :=
  foldl_add_edge_symmAdj es Graph.new Graph.new_symmAdj

/-- On a supported graph with symmetric adjacency, neighbor-set membership is
symmetric. -/
lemma Graph.neighborSet_symm {g : Graph} (hs : g.Supported) (ha : g.SymmAdj)
    {x y : String} (h : y ∈ g.neighborSet x) : x ∈ g.neighborSet y := by
  rw [Graph.mem_neighborSet_iff] at h
  obtain ⟨_, hadj⟩ := h
  have hy : x ∈ g.adj y := ha x y hadj
  have hyk : y ∈ g.keys := by
    by_contra hyk
    rw [hs y hyk] at hy
    exact absurd hy (Finset.not_mem_empty x)
  exact (Graph.mem_neighborSet_iff g y x).mpr ⟨hyk, hy⟩

/-- Tallying nodes by degree partitions the node set: the counts sum to the
number of nodes. -/
lemma sum_degree_counts (g : Graph) :
    ∑ d ∈ (g.degree_distribution).1, (g.degree_distribution).2 d =
      g.keys.card := by
  classical
  simp only [Graph.degree_distribution]
  exact (Finset.card_eq_sum_card_image (fun v => (g.adj v).card) g.keys).symm

/-- A score of the form `1 / (1 + mse)` with nonnegative `mse` lies in
`(0, 1]`. -/
lemma score_bounds {mse : ℝ} (h : 0 ≤ mse) :
    0 < 1 / (1 + mse) ∧ 1 / (1 + mse) ≤ 1 := by
  constructor
  · apply one_div_pos.mpr
    linarith
  · rw [div_le_one (by linarith)]
    linarith

/-- Addition of finite model values is exact. -/
lemma F64.add_fin_fin (x y : ℝ) :
    F64.add (F64.fin x) (F64.fin y) = F64.fin (x + y) := rfl

/-- Subtraction of finite model values is exact. -/
lemma F64.sub_fin_fin (x y : ℝ) :
    F64.sub (F64.fin x) (F64.fin y) = F64.fin (x - y) := rfl

/-- Squaring a finite model value is exact. -/
lemma F64.sq_fin (x : ℝ) : F64.sq (F64.fin x) = F64.fin (x ^ 2) := rfl

/-- Division of finite model values with a nonzero divisor is exact. -/
lemma F64.div_fin_fin (x : ℝ) {y : ℝ} (hy : y ≠ 0) :
    F64.div (F64.fin x) (F64.fin y) = F64.fin (x / y) := by
  simp [F64.div, hy]

/-- Raising a positive finite base is exact. -/
lemma F64.powf_fin_pos {x : ℝ} (hx : 0 < x) (y : ℝ) :
    F64.powf (F64.fin x) y = F64.fin (x ^ y) := by
  simp [F64.powf, hx]

/-- Folding IEEE addition over finite values is the exact real sum. -/
lemma F64.foldl_add_fin (l : List ℝ) :
    ∀ c : ℝ, (l.map F64.fin).foldl F64.add (F64.fin c) = F64.fin (c + l.sum) := by
  induction l with
  | nil => intro c; simp
  | cons x xs ih =>
      intro c
      rw [List.map_cons, List.foldl_cons, F64.add_fin_fin, ih, List.sum_cons,
        add_assoc]

/-- `F64.sum` over finite values given by a function is the exact real sum. -/
lemma F64.sum_map_fin {α : Type} (f : α → ℝ) (l : List α) :
    F64.sum (l.map (fun a => F64.fin (f a))) = F64.fin ((l.map f).sum) := by
  have h : l.map (fun a => F64.fin (f a)) = (l.map f).map F64.fin := by
    rw [List.map_map]
    rfl
  simp only [F64.sum]
  rw [h, F64.foldl_add_fin, zero_add]

/-- When every observed entry carries a finite value and the theoretical
sequence consists of finite values, the score `1 / (1 + mse)` is a finite
value in (0, 1]: the squared-error sum is exact and nonnegative. -/
lemma f64_score_tail (obs : List (ℕ × F64)) (t : (ℕ × F64) → ℝ)
    (h2 : ∀ q ∈ obs, q.2 = F64.fin (F64.toReal q.2)) :
    F64.inIoc01 (F64.div (F64.fin 1) (F64.add (F64.fin 1)
      (F64.sum ((obs.zip (obs.map (fun p => F64.fin (t p)))).map
        (fun q => F64.sq (F64.sub q.1.2 q.2)))))) := by
  have hmse : (obs.zip (obs.map (fun p => F64.fin (t p)))).map
        (fun q => F64.sq (F64.sub q.1.2 q.2))
      = (obs.zip (obs.map (fun p => F64.fin (t p)))).map
        (fun q => F64.fin ((F64.toReal q.1.2 - F64.toReal q.2) ^ 2)) := by
    apply List.map_congr_left
    intro q hq
    rcases q with ⟨q1, q2⟩
    obtain ⟨hq1, hq2⟩ := List.of_mem_zip hq
    obtain ⟨p, hp, rfl⟩ := List.mem_map.mp hq2
    rw [h2 q1 hq1, F64.sub_fin_fin, F64.sq_fin]
    simp [F64.toReal]
  rw [hmse,
    F64.sum_map_fin (fun q => (F64.toReal q.1.2 - F64.toReal q.2) ^ 2)
      (obs.zip (obs.map (fun p => F64.fin (t p)))),
    F64.add_fin_fin]
  set S : ℝ := ((obs.zip (obs.map (fun p => F64.fin (t p)))).map
      (fun q => (F64.toReal q.1.2 - F64.toReal q.2) ^ 2)).sum with hSdef
  have hS : (0 : ℝ) ≤ S := by
    rw [hSdef]
    apply List.sum_nonneg
    intro x hx
    simp only [List.mem_map] at hx
    obtain ⟨q, _, rfl⟩ := hx
    exact sq_nonneg _
  have hpos : (0 : ℝ) < 1 + S := by linarith
  rw [F64.div_fin_fin _ hpos.ne']
  simp only [F64.inIoc01]
  exact score_bounds hS

/-- With every observed degree positive and every observed probability a
finite value, the whole f64 score computation stays finite: the weights
`1 / d^2.5` are positive finite values, their sum is a positive finite
normalization, each theoretical probability is finite, and the score is a
finite value in (0, 1]. -/
lemma f64_score_of_observed (obs : List (ℕ × F64))
    (h : ∀ q ∈ obs, 0 < q.1 ∧ q.2 = F64.fin (F64.toReal q.2)) :
    F64.inIoc01
      (F64.div (F64.fin 1)
        (F64.add (F64.fin 1)
          (F64.sum
            ((obs.zip (obs.map (fun p =>
                F64.div
                  (F64.div (F64.fin 1)
                    (F64.powf (F64.fin (p.1 : ℝ)) (2.5 : ℝ)))
                  (F64.sum (obs.map (fun p =>
                    F64.div (F64.fin 1)
                      (F64.powf (F64.fin (p.1 : ℝ)) (2.5 : ℝ)))))))).map
              (fun q => F64.sq (F64.sub q.1.2 q.2)))))) := by
  have hwpos : ∀ x ∈ obs.map (fun p => 1 / ((p.1 : ℝ) ^ (2.5 : ℝ))), 0 < x := by
    intro x hx
    simp only [List.mem_map] at hx
    obtain ⟨p, hp, rfl⟩ := hx
    have hp1 : (0 : ℝ) < (p.1 : ℝ) := by exact_mod_cast (h p hp).1
    exact one_div_pos.mpr (Real.rpow_pos_of_pos hp1 _)
  have hw : obs.map (fun p => F64.div (F64.fin 1)
        (F64.powf (F64.fin (p.1 : ℝ)) (2.5 : ℝ)))
      = obs.map (fun p => F64.fin (1 / ((p.1 : ℝ) ^ (2.5 : ℝ)))) := by
    apply List.map_congr_left
    intro p hp
    have hp1 : (0 : ℝ) < (p.1 : ℝ) := by exact_mod_cast (h p hp).1
    rw [F64.powf_fin_pos hp1,
      F64.div_fin_fin _ (Real.rpow_pos_of_pos hp1 _).ne']
  rw [hw, F64.sum_map_fin (fun p => 1 / ((p.1 : ℝ) ^ (2.5 : ℝ))) obs]
  have hth : obs.map (fun p =>
        F64.div (F64.div (F64.fin 1) (F64.powf (F64.fin (p.1 : ℝ)) (2.5 : ℝ)))
          (F64.fin ((obs.map (fun p => 1 / ((p.1 : ℝ) ^ (2.5 : ℝ)))).sum)))
      = obs.map (fun p => F64.fin ((1 / ((p.1 : ℝ) ^ (2.5 : ℝ))) /
          (obs.map (fun p => 1 / ((p.1 : ℝ) ^ (2.5 : ℝ)))).sum)) := by
    apply List.map_congr_left
    intro p hp
    have hp1 : (0 : ℝ) < (p.1 : ℝ) := by exact_mod_cast (h p hp).1
    have hZ : (0 : ℝ) < (obs.map (fun p => 1 / ((p.1 : ℝ) ^ (2.5 : ℝ)))).sum :=
      List.sum_pos _ hwpos (by
        rw [Ne, List.map_eq_nil_iff]
        exact List.ne_nil_of_mem hp)
    rw [F64.powf_fin_pos hp1,
      F64.div_fin_fin _ (Real.rpow_pos_of_pos hp1 _).ne',
      F64.div_fin_fin _ hZ.ne']
  rw [hth]
  exact f64_score_tail obs _ (fun q hq => (h q hq).2)

/-- Folding the per-line ingestion step is folding `add_edge` over the
well-formed records. -/
lemma foldl_processRecord (lines : List String) :
    ∀ g : Graph,
      lines.foldl processRecord g =
        (wellFormedEdges lines).foldl (fun g e => g.add_edge e.1 e.2) g := by
  induction lines with
  | nil => intro g; simp [wellFormedEdges]
  | cons l ls ih =>
    intro g
    rw [List.foldl_cons]
    rcases hsplit : l.splitOn "," with _ | ⟨p0, rest⟩
    · rw [show processRecord g l = g by simp [processRecord, hsplit]]
      rw [show wellFormedEdges (l :: ls) = wellFormedEdges ls by
        simp [wellFormedEdges, List.filterMap_cons, hsplit]]
      exact ih g
    · rcases rest with _ | ⟨p1, rest2⟩
      · rw [show processRecord g l = g by simp [processRecord, hsplit]]
        rw [show wellFormedEdges (l :: ls) = wellFormedEdges ls by
          simp [wellFormedEdges, List.filterMap_cons, hsplit]]
        exact ih g
      · rw [show processRecord g l = g.add_edge p0.trim p1.trim by
          simp [processRecord, hsplit]]
        rw [show wellFormedEdges (l :: ls) =
            (p0.trim, p1.trim) :: wellFormedEdges ls by
          simp [wellFormedEdges, List.filterMap_cons, hsplit]]
        rw [List.foldl_cons]
        exact ih _

/-- C1: starting from the empty graph, every sequence of `add_edge` calls
keeps the adjacency relation symmetric. Unconditionally, after `add_edge a b`
on any reachable state — the empty graph included — the node `b` is in `a`'s
neighbor set and `a` is in `b`'s; and in every reachable graph state,
whenever `y` is in `x`'s neighbor set, `x` is in `y`'s. -/
theorem add_edge_symmetric_reachable (es : List (String × String))
    (a b x y : String) :
    (b ∈ ((buildGraph es).add_edge a b).neighborSet a ∧
     a ∈ ((buildGraph es).add_edge a b).neighborSet b) ∧
    (y ∈ (buildGraph es).neighborSet x →
     x ∈ (buildGraph es).neighborSet y) := by
  refine ⟨⟨?_, ?_⟩, ?_⟩
  · rw [Graph.mem_neighborSet_iff]
    exact ⟨(Graph.mem_add_edge_keys _ a b a).mpr (Or.inl rfl),
      (Graph.mem_add_edge_adj _ a b a b).mpr (Or.inl ⟨rfl, rfl⟩)⟩
  · rw [Graph.mem_neighborSet_iff]
    exact ⟨(Graph.mem_add_edge_keys _ a b b).mpr (Or.inr (Or.inl rfl)),
      (Graph.mem_add_edge_adj _ a b b a).mpr (Or.inr (Or.inl ⟨rfl, rfl⟩))⟩
  · intro hxy
    exact Graph.neighborSet_symm (buildGraph_supported es)
      (buildGraph_symmAdj es) hxy

/-- Witness for C1: the first `add_edge` on the empty graph (es = []) already
inserts both directions, and on the state built from the edge A–B the
symmetry implication is discharged at the pair (A, B). -/
theorem add_edge_symmetric_reachable_witness :
    ("B" ∈ ((buildGraph []).add_edge "A" "B").neighborSet "A" ∧
     "A" ∈ ((buildGraph []).add_edge "A" "B").neighborSet "B") ∧
    ("B" ∈ (buildGraph [("A", "B")]).neighborSet "A") ∧
    ("A" ∈ (buildGraph [("A", "B")]).neighborSet "B") :=
  ⟨(add_edge_symmetric_reachable [] "A" "B" "A" "B").1,
   by decide,
   (add_edge_symmetric_reachable [("A", "B")] "X" "Y" "A" "B").2 (by decide)⟩

/-- C2: for a node present in the graph, `neighbors_at_distance_two` returns
the size of the set obtained by uniting the neighbor sets of all of the
node's direct neighbors and removing only the node itself (so direct
neighbors occurring in that union are counted, and each reachable node is
counted once). -/
theorem neighbors_at_distance_two_eq_spec (g : Graph) (node : String)
    (h : node ∈ g.keys) :
    g.neighbors_at_distance_two node = (specDistanceTwoSet g node).card := by
  unfold Graph.neighbors_at_distance_two specDistanceTwoSet Graph.neighborSet
    Graph.getAdj
  rw [if_pos h]
  rfl

/-- Witness for C2 at node B of the path graph A–B–C–D. -/
theorem neighbors_at_distance_two_eq_spec_witness :
    "B" ∈ pathGraph.keys ∧
    pathGraph.neighbors_at_distance_two "B" =
      (specDistanceTwoSet pathGraph "B").card :=
  ⟨by decide, neighbors_at_distance_two_eq_spec pathGraph "B" (by decide)⟩

/-- C3 counterexample: on the graph built from exactly the edges A–B, B–C,
C–D, the two-hop count at B is not 2 (B's neighbors are A and C; A
contributes nothing besides B, C contributes B and D; B is excluded as the
origin, leaving only D). The repository's own test asserts 2 and therefore
fails against the algorithm it tests. -/
theorem path_distance_two_at_b_ne_two :
    pathGraph.neighbors_at_distance_two "B" ≠ 2 := by decide

/-- C3 amended: on the graph built from exactly the edges A–B, B–C, C–D,
`neighbors_at_distance_two` returns 1 at A and 1 at B. -/
theorem path_distance_two_values :
    pathGraph.neighbors_at_distance_two "A" = 1 ∧
    pathGraph.neighbors_at_distance_two "B" = 1 := by decide

/-- C4: for every reachable graph state, the counts in the degree
distribution sum to the number of distinct nodes in the adjacency mapping. -/
theorem degree_distribution_sum_reachable (es : List (String × String)) :
    ∑ d ∈ ((buildGraph es).degree_distribution).1,
      ((buildGraph es).degree_distribution).2 d =
      (buildGraph es).keys.card :=
  sum_degree_counts (buildGraph es)

/-- C5: `add_edge` is idempotent on unordered pairs: repeating `add_edge a b`,
or following it with `add_edge b a`, leaves the adjacency mapping exactly as
after the first call, on every graph state. -/
theorem add_edge_idempotent_unordered (g : Graph) (a b : String) :
    (g.add_edge a b).add_edge a b = g.add_edge a b ∧
    (g.add_edge a b).add_edge b a = g.add_edge a b := by
  constructor
  · apply Graph.ext
    · ext z
      simp only [Graph.mem_add_edge_keys]
      tauto
    · funext x
      ext z
      simp only [Graph.mem_add_edge_adj]
      tauto
  · apply Graph.ext
    · ext z
      simp only [Graph.mem_add_edge_keys]
      tauto
    · funext x
      ext z
      simp only [Graph.mem_add_edge_adj]
      tauto

/-- C6: `neighbors_at_distance_two` on a node absent from the adjacency
mapping returns 0 (an empty result, not a failure). -/
theorem neighbors_at_distance_two_absent (g : Graph) (node : String)
    (h : node ∉ g.keys) : g.neighbors_at_distance_two node = 0 := by
  simp [Graph.neighbors_at_distance_two, Graph.getAdj, h]

/-- Witness for C6 at the node E, absent from the path graph A–B–C–D. -/
theorem neighbors_at_distance_two_absent_witness :
    "E" ∉ pathGraph.keys ∧ pathGraph.neighbors_at_distance_two "E" = 0 :=
  ⟨by decide, neighbors_at_distance_two_absent pathGraph "E" (by decide)⟩

/-- C9: ingestion builds exactly the graph obtained by folding `add_edge`
over the well-formed records in input order: each line splits on commas,
lines with at least two fields contribute their trimmed first two fields as
an edge (further fields ignored), and shorter lines are skipped silently. -/
theorem build_graph_from_csv_eq_buildGraph (lines : List String) :
    build_graph_from_csv lines = buildGraph (wellFormedEdges lines) :=
  foldl_processRecord lines Graph.new

/-- C7 counterexample: the distribution mapping degree 0 to count 1 is
non-empty with a positive count, yet its score does not lie in (0, 1]: the
weight `1.0 / 0.0^2.5` is infinite, the normalization `inf / inf` is NaN, and
NaN propagates to the returned score, which therefore is not a finite value
in the interval. -/
theorem evaluate_power_law_f64_zero_degree_nan :
    ¬ F64.inIoc01 (evaluate_power_law_f64 [(0, 1)]) := by
  have h : evaluate_power_law_f64 [(0, 1)] = F64.nan := by
    simp only [evaluate_power_law_f64, List.map_cons, List.map_nil,
      List.sum_cons, List.sum_nil, List.mergeSort_singleton,
      List.zip_cons_cons, List.zip_nil_right]
    norm_num [F64.div, F64.powf, F64.add, F64.sub, F64.sq, F64.sum]
  rw [h]
  simp [F64.inIoc01]

/-- C7 amended: for every non-empty observed distribution whose counts are
positive and whose degree keys are all positive, the score is a finite value
in the half-open interval (0, 1] — proved on the IEEE special-value model, so
the computation is also shown to stay clear of the inf/NaN paths. -/
theorem evaluate_power_law_f64_bounds (distribution : List (ℕ × ℕ))
    (hne : distribution ≠ [])
    (hpos : ∀ p ∈ distribution, 0 < p.2)
    (hdeg : ∀ p ∈ distribution, 0 < p.1) :
    F64.inIoc01 (evaluate_power_law_f64 distribution) := by
  have htot : (0 : ℝ) < (((distribution.map (fun p => p.2)).sum : ℕ) : ℝ) := by
    obtain ⟨p, hp⟩ := List.exists_mem_of_ne_nil distribution hne
    have h1 : p.2 ≤ (distribution.map (fun p => p.2)).sum :=
      List.single_le_sum (fun x _ => Nat.zero_le x) _
        (List.mem_map_of_mem _ hp)
    have h2 : 0 < (distribution.map (fun p => p.2)).sum :=
      lt_of_lt_of_le (hpos p hp) h1
    exact_mod_cast h2
  simp only [evaluate_power_law_f64]
  apply f64_score_of_observed
  intro q hq
  rw [List.mem_mergeSort] at hq
  obtain ⟨p, hp, rfl⟩ := List.mem_map.mp hq
  refine ⟨hdeg p hp, ?_⟩
  show F64.div (F64.fin (p.2 : ℝ)) (F64.fin _) = _
  rw [F64.div_fin_fin _ htot.ne']
  simp [F64.toReal]

/-- Witness for the amended C7 at the one-entry distribution mapping degree 1
to count 1. -/
theorem evaluate_power_law_f64_bounds_witness :
    ([((1 : ℕ), (1 : ℕ))] ≠ [] ∧ (∀ p ∈ [((1 : ℕ), (1 : ℕ))], 0 < p.2) ∧
      (∀ p ∈ [((1 : ℕ), (1 : ℕ))], 0 < p.1)) ∧
    F64.inIoc01 (evaluate_power_law_f64 [(1, 1)]) :=
  ⟨⟨by decide, by decide, by decide⟩,
   evaluate_power_law_f64_bounds [(1, 1)] (by decide) (by decide) (by decide)⟩

/-- C8 counterexample: the single-key distribution mapping degree 0 to count 1
does not score 1. In the source, `1.0 / 0f64.powf(2.5)` is infinite and the
score is `NaN`, which is not `1.0`; in the real-valued model, total division
makes the theoretical probability 0 and the score 1/2, again not 1. Under
both semantics the claim fails at this input. -/
theorem evaluate_power_law_zero_degree_ne_one :
    evaluate_power_law [(0, 1)] ≠ 1 := by
  have h0 : ((0 : ℕ) : ℝ) ^ (2.5 : ℝ) = 0 := by
    rw [Nat.cast_zero, Real.zero_rpow (by norm_num)]
  simp only [evaluate_power_law, List.map_cons, List.map_nil, List.sum_cons,
    List.sum_nil, List.mergeSort_singleton, List.zip_cons_cons,
    List.zip_nil_right, add_zero, h0]
  norm_num

/-- C8 amended: for every distribution with exactly one degree key, provided
that degree is positive (with any positive count), `evaluate_power_law`
returns exactly 1: the observed probability is `c / c = 1`, the normalization
collapses the theoretical probability to 1, and the squared-error sum is 0. -/
theorem evaluate_power_law_single_degree (d c : ℕ) (hd : 0 < d)
    (hc : 0 < c) : evaluate_power_law [(d, c)] = 1 := by
  have hc' : ((c : ℝ)) ≠ 0 := Nat.cast_ne_zero.mpr hc.ne'
  have hw : (0 : ℝ) < (d : ℝ) ^ (2.5 : ℝ) :=
    Real.rpow_pos_of_pos (by exact_mod_cast hd) _
  simp only [evaluate_power_law, List.map_cons, List.map_nil, List.sum_cons,
    List.sum_nil, List.mergeSort_singleton, List.zip_cons_cons,
    List.zip_nil_right, add_zero]
  rw [div_self hc', div_self (one_div_ne_zero hw.ne')]
  norm_num

/-- Witness for the amended C8 at degree 2 with count 3. -/
theorem evaluate_power_law_single_degree_witness :
    (0 < 2 ∧ 0 < 3) ∧ evaluate_power_law [(2, 3)] = 1 :=
  ⟨⟨by decide, by decide⟩,
   evaluate_power_law_single_degree 2 3 (by decide) (by decide)⟩

/-- C10: on the empty distribution the computation is total and returns
exactly 1: the observed and theoretical sequences are empty, the
squared-error sum over them is 0, and the score is `1 / (1 + 0) = 1`. -/
theorem evaluate_power_law_empty : evaluate_power_law [] = 1 := by
  simp [evaluate_power_law]
